import Mathlib

/-!
Verification of the LOC dashboard snapshot-extraction pipeline
(`src/loc_dashboard/extractor.py`).

The Python module is shallowly embedded: Python strings are Lean `String`,
Python `dict` is an insertion-ordered association list, external processes
(`git log`, `git archive`, `cloc`, `git ls-tree`) are an environment of
oracle functions each returning either a completed process (return code,
stdout, stderr) or a timeout event, raised Python exceptions are `Except`
errors, and the filesystem of temporary files plus the trace of external
invocations is threaded as explicit state.
-/

namespace LocDashboard

/-! ### Python string primitives -/

/-- Helper for `pySplitWs`: collect maximal runs of non-whitespace characters,
carrying the current token in reverse. -/
def tokensAux : List Char → List Char → List (List Char)
  | [], acc => if acc.isEmpty then [] else [acc.reverse]
  | c :: cs, acc =>
    if c.isWhitespace then
      if acc.isEmpty then tokensAux cs [] else acc.reverse :: tokensAux cs []
    else tokensAux cs (c :: acc)

/-- Python `str.split()` with no argument: split on runs of whitespace and
drop empty tokens. -/
def pySplitWs (s : String) : List String :=
  (tokensAux s.toList []).map String.mk

/-- Split a character list at every occurrence of `sep`, keeping empty
segments; Python `str.split(sep)` for a one-character separator. -/
def splitOnChar (sep : Char) : List Char → List (List Char)
  | [] => [[]]
  | c :: cs =>
    if c = sep then [] :: splitOnChar sep cs
    else
      match splitOnChar sep cs with
      | [] => [[c]]
      | t :: ts => (c :: t) :: ts

/-- Python `line.split(",")`. -/
def pySplitComma (s : String) : List String :=
  (splitOnChar ',' s.toList).map String.mk

/-- Python `str.splitlines()` for newline-terminated text: split at every
newline character and drop the segment after a trailing newline (so the
empty string yields no lines). Other Unicode line separators are not
produced by the processes modelled here. -/
def pySplitlines (s : String) : List String :=
  let ls := (splitOnChar '\n' s.toList).map String.mk
  if ls.getLast? = some ("") then ls.dropLast else ls

/-- Drop characters satisfying `p` from both ends of a character list. -/
def stripList (p : Char → Bool) (cs : List Char) : List Char :=
  ((cs.dropWhile p).reverse.dropWhile p).reverse

/-- Python `str.strip()` with no argument. -/
def pyStrip (s : String) : String :=
  String.mk (stripList Char.isWhitespace s.toList)

/-- Python `s.strip("/")`: remove every leading and trailing slash. -/
def pyStripSlashes (s : String) : String :=
  String.mk (stripList (· = '/') s.toList)

/-- Whether the first list is an initial segment of the second; used for
Python `line.startswith(...)`. -/
def listStartsWith : List Char → List Char → Bool
  | [], _ => true
  | _ :: _, [] => false
  | p :: ps, c :: cs => p = c && listStartsWith ps cs

/-- Python `s[:n]`. -/
def strTake (s : String) (n : Nat) : String :=
  String.mk (s.toList.take n)

/-- Numeric value of a digit run. -/
def digitsVal (ds : List Char) : Nat :=
  ds.foldl (fun n c => 10 * n + (c.toNat - 48)) 0

/-- Python `int(str)`: strip surrounding whitespace, allow one optional sign,
then require a nonempty run of ASCII digits; anything else raises
`ValueError`, modelled as `none`. Digit-group underscores and non-ASCII
digits, which Python additionally accepts, are not modelled; no input used
below contains them. -/
def pyInt (s : String) : Option Int :=
  let cs := stripList Char.isWhitespace s.toList
  match cs with
  | '+' :: ds =>
    if ds ≠ [] ∧ ds.all Char.isDigit then some (digitsVal ds) else none
  | '-' :: ds =>
    if ds ≠ [] ∧ ds.all Char.isDigit then some (-(digitsVal ds : Int)) else none
  | ds =>
    if ds ≠ [] ∧ ds.all Char.isDigit then some (digitsVal ds) else none

/-- Strict lexicographic order on character lists by code point; the order
Python uses to compare strings. -/
def listCharLt : List Char → List Char → Bool
  | [], [] => false
  | [], _ :: _ => true
  | _ :: _, [] => false
  | a :: as, b :: bs =>
    if a.toNat < b.toNat then true
    else if b.toNat < a.toNat then false
    else listCharLt as bs

/-- Lexicographic order on character lists by code point, with equality. -/
def listCharLe : List Char → List Char → Bool
  | [], _ => true
  | _ :: _, [] => false
  | a :: as, b :: bs =>
    if a.toNat < b.toNat then true
    else if b.toNat < a.toNat then false
    else listCharLe as bs

/-- Python string comparison `s < t`. -/
def strLt (s t : String) : Bool := listCharLt s.toList t.toList

/-- Python string comparison `s <= t`. -/
def strLe (s t : String) : Bool := listCharLe s.toList t.toList

/-- Insert into a list sorted by `strLe`, keeping it sorted. -/
def ordInsert (a : String) : List String → List String
  | [] => [a]
  | b :: l => if strLe a b then a :: b :: l else b :: ordInsert a l

/-- Python `sorted(...)` on a list of strings: the permutation sorted
ascending by code-point lexicographic order (computed by insertion sort;
`sorted` is stable and total, and on the duplicate-free key lists it is
applied to below the sorted permutation is unique). -/
def sortStrings : List String → List String
  | [] => []
  | a :: l => ordInsert a (sortStrings l)

/-! ### Python dict as an insertion-ordered association list -/

/-- A Python `dict`, as the ordered list of its key-value pairs. -/
abbrev Dict (α β : Type) := List (α × β)

/-- Python assignment `d[k] = v`: replace the value at the first occurrence
of `k` keeping its position, or append `(k, v)` at the end. -/
def dictInsert {α β : Type} [DecidableEq α] (k : α) (v : β) : Dict α β → Dict α β
  | [] => [(k, v)]
  | (k₁, v₁) :: rest =>
    if k₁ = k then (k, v) :: rest else (k₁, v₁) :: dictInsert k v rest

/-- Python `d[k]` as an optional value (first matching key). -/
def dictLookup {α β : Type} [DecidableEq α] : Dict α β → α → Option β
  | [], _ => none
  | (k₁, v₁) :: rest, k => if k = k₁ then some v₁ else dictLookup rest k

/-- Python `d.get(k, v0)`. -/
def dictGetD {α β : Type} [DecidableEq α] (d : Dict α β) (k : α) (v₀ : β) : β :=
  (dictLookup d k).getD v₀

/-- Python `d.keys()`, in insertion order. -/
def dictKeys {α β : Type} (d : Dict α β) : List α :=
  d.map Prod.fst

/-- Python `sum(d.values())` for an integer-valued dict. -/
def dictValuesSum (d : Dict String Int) : Int :=
  (d.map Prod.snd).sum

/-- Decidable equality for `Except` results, used to evaluate the concrete
runs below. -/
instance exceptDecEq {ε α : Type} [DecidableEq ε] [DecidableEq α] :
    DecidableEq (Except ε α) := fun x y =>
  match x, y with
  | .error e, .error f =>
    if h : e = f then isTrue (by rw [h])
    else isFalse (fun hh => by cases hh; exact h rfl)
  | .error _, .ok _ => isFalse (fun hh => Except.noConfusion hh)
  | .ok _, .error _ => isFalse (fun hh => Except.noConfusion hh)
  | .ok a, .ok b =>
    if h : a = b then isTrue (by rw [h])
    else isFalse (fun hh => by cases hh; exact h rfl)

/-! ### Processes, errors, state -/

/-- A raised Python exception. -/
inductive PyErr : Type where
  | indexError
  | valueError
  | keyError
  | timeoutExpired
  | runtimeError (msg : String)
deriving DecidableEq

/-- A completed `subprocess.run` invocation. -/
structure Completed where
  returncode : Int
  stdout : String
  stderr : String
deriving DecidableEq

/-- Outcome of one external process invocation: completion, or expiry of the
`timeout=` bound (which makes `subprocess.run` raise `TimeoutExpired`). -/
inductive ProcResult : Type where
  | completed (c : Completed)
  | timedOut
deriving DecidableEq

/-- One recorded external invocation, for stating which oracles a code path
runs. -/
inductive CallEv : Type where
  | archiveCall (commit : String) (subpath : Option String)
  | clocCall (tmpPath : String)
  | lsTreeCall (commit : String) (subpath : String)
deriving DecidableEq

/-- Threaded state: the set of existing temporary files, the counter feeding
fresh temp-file names, and the trace of external invocations. -/
structure St where
  fs : List String
  counter : Nat
  calls : List CallEv
deriving DecidableEq

/-- File creation (`tempfile.NamedTemporaryFile(delete=False)`). -/
def fsAdd (p : String) (fs : List String) : List String :=
  if p ∈ fs then fs else p :: fs

/-- Python `if os.path.exists(p): os.unlink(p)`. -/
def fsRemoveIfExists (p : String) (fs : List String) : List String :=
  if p ∈ fs then fs.erase p else fs

/-- The external world: each oracle describes what the corresponding process
invocation would produce. `cloc` is keyed by the tar content the archive
step wrote to the temp file, `tmpName` yields the fresh name
`tempfile.NamedTemporaryFile` hands out for a given value of the
temp-name counter. -/
structure Env where
  gitLog : String → ProcResult
  archive : String → Option String → ProcResult
  cloc : String → ProcResult
  lsTree : String → String → ProcResult
  tmpName : Nat → String

/-! ### Commit selector (`get_monthly_commits`) -/

/-- One entry of the `monthly` dict: `{"hash": ..., "date": ..., "month": ...}`.
The `datetime` value built by `datetime.fromisoformat(f"{parts[1]}T{parts[2]}")`
is modelled as that ISO string itself. -/
structure MonthEntry where
  hash : String
  date : String
  month : String
deriving DecidableEq

/-- Body of the `for line in result.stdout.strip().splitlines()` loop:
`parts = line.split()`, `commit_hash = parts[0]`, `date_str = parts[1]`,
`month = date_str[:7]`,
`commit_date = datetime.fromisoformat(f"{parts[1]}T{parts[2]}")`.
Fewer than three whitespace tokens raises `IndexError`. Note that
`parts[3]`, the timezone-offset field of `%ai` output, is never read. -/
def parseLogLine (line : String) : Except PyErr MonthEntry :=
  match pySplitWs line with
  | h :: d :: t :: _ =>
    .ok { hash := h, date := d ++ "T" ++ t, month := strTake d 7 }
  | _ => .error .indexError

/-- The fold building the `monthly` dict, oldest line first; an exception in
the loop body aborts the whole call. -/
def buildMonthly : List String → Dict String MonthEntry →
    Except PyErr (Dict String MonthEntry)
  | [], monthly => .ok monthly
  | line :: rest, monthly =>
    match parseLogLine line with
    | .error e => .error e
    | .ok entry => buildMonthly rest (dictInsert entry.month entry monthly)

/-- The comprehension `[monthly[k] for k in sorted(monthly.keys())]`;
Python raises `KeyError` on a missing key (impossible here, proved below). -/
def lookupAll (d : Dict String MonthEntry) :
    List String → Except PyErr (List MonthEntry)
  | [] => .ok []
  | k :: ks =>
    match dictLookup d k with
    | none => .error .keyError
    | some e =>
      match lookupAll d ks with
      | .error err => .error err
      | .ok rest => .ok (e :: rest)

/-- The tail of `get_monthly_commits` after a successful `git log`, as a function of the
stripped and split stdout lines. -/
def monthlyFromLines (lines : List String) : Except PyErr (List MonthEntry) :=
  match buildMonthly lines [] with
  | .error e => .error e
  | .ok d => lookupAll d (sortStrings (dictKeys d))

/-- Function `get_monthly_commits(repo_path, branch)`: run
`git log branch --format=%H %ai --reverse`; a non-zero return code raises
`RuntimeError`, otherwise fold the output lines into the per-month dict and
return its entries sorted by month key ascending. -/
def get_monthly_commits (env : Env) (branch : String) :
    Except PyErr (List MonthEntry) :=
  match env.gitLog branch with
  | .timedOut => .error .timeoutExpired
  | .completed c =>
    if c.returncode ≠ 0 then
      .error (.runtimeError ("git log failed: " ++ c.stderr))
    else
      monthlyFromLines (pySplitlines (pyStrip c.stdout))

/-! ### LOC oracle adapter (`_cloc_from_archive`) -/

/-- The `for line in cloc_result.stdout.strip().splitlines()` parsing loop,
with the `total` and `by_lang` accumulators. Mirrors, in order: the
`line.startswith("files") or not line[0].isdigit()` skip (short-circuit, so
an empty line raises `IndexError` from `line[0]`), the `len(parts) < 5`
skip, `lang = parts[1]`, `code = int(parts[4])` (raising `ValueError` on a
non-integer field), then the `SUM` dispatch. -/
def parseClocGo : List String → Int → Dict String Int →
    Except PyErr (Int × Dict String Int)
  | [], total, byLang => .ok (total, byLang)
  | line :: rest, total, byLang =>
    if listStartsWith ("files").toList line.toList then parseClocGo rest total byLang
    else
      match line.toList with
      | [] => .error .indexError
      | c :: _ =>
        if ¬ c.isDigit then parseClocGo rest total byLang
        else
          let parts := pySplitComma line
          if parts.length < 5 then parseClocGo rest total byLang
          else
            match pyInt (parts.getD 4 "") with
            | none => .error .valueError
            | some code =>
              if parts.getD 1 "" = "SUM" then parseClocGo rest code byLang
              else parseClocGo rest total (dictInsert (parts.getD 1 "") code byLang)

/-- Parse the full cloc stdout: strip, split into lines, fold. -/
def parseClocOutput (stdout : String) : Except PyErr (Int × Dict String Int) :=
  parseClocGo (pySplitlines (pyStrip stdout)) 0 []

/-- The `try:` body of `_cloc_from_archive`: run `git archive` (writing its
stdout into the temp file), bail out with `(0, {})` on a non-zero return
code, run `cloc` on the temp file, bail out with `(0, {})` on a non-zero
return code, else parse. A timeout of either process raises
`TimeoutExpired`. -/
def cloc_body (env : Env) (commit : String) (subpath : Option String)
    (tmp : String) (st : St) : Except PyErr (Int × Dict String Int) × St :=
  let st₁ : St := { st with calls := st.calls ++ [CallEv.archiveCall commit subpath] }
  match env.archive commit subpath with
  | .timedOut => (.error .timeoutExpired, st₁)
  | .completed a =>
    if a.returncode ≠ 0 then (.ok (0, []), st₁)
    else
      let st₂ : St := { st₁ with calls := st₁.calls ++ [CallEv.clocCall tmp] }
      match env.cloc a.stdout with
      | .timedOut => (.error .timeoutExpired, st₂)
      | .completed c =>
        if c.returncode ≠ 0 then (.ok (0, []), st₂)
        else (parseClocOutput c.stdout, st₂)

/-- Function `_cloc_from_archive(repo_path, commit_hash, subpath)` (its Lean name drops the leading underscore): create a fresh
temp file, run the body, and in the `finally:` block unlink the temp file if
it exists — on the normal return paths and on the exception path alike. -/
def cloc_from_archive (env : Env) (commit : String) (subpath : Option String)
    (st : St) : Except PyErr (Int × Dict String Int) × St :=
  let tmp := env.tmpName st.counter
  let st₁ : St := { st with counter := st.counter + 1, fs := fsAdd tmp st.fs }
  let r := cloc_body env commit subpath tmp st₁
  (r.1, { r.2 with fs := fsRemoveIfExists tmp r.2.fs })

/-! ### Path existence oracle (`_has_subpath`) -/

/-- Function `_has_subpath(repo_path, commit_hash, subpath)` (its Lean name drops the leading underscore): run
`git ls-tree -d commit -- subpath` and report
`returncode == 0 and stdout.strip() != ""`. The `_run` helper also carries a
timeout, whose expiry raises `TimeoutExpired`. -/
def has_subpath (env : Env) (commit sd : String) (st : St) :
    Except PyErr Bool × St :=
  let st₁ : St := { st with calls := st.calls ++ [CallEv.lsTreeCall commit sd] }
  match env.lsTree commit sd with
  | .timedOut => (.error .timeoutExpired, st₁)
  | .completed c => (.ok (c.returncode == 0 && pyStrip c.stdout != ""), st₁)

/-! ### Snapshot assembler and pipeline driver (`collect_snapshots`) -/

/-- The `LOCSnapshot` dataclass; `commit_date` is the ISO string carried by
the month entry. -/
structure LOCSnapshot where
  month : String
  commit_hash : String
  commit_date : String
  repo_total : Int := 0
  repo_by_lang : Dict String Int := []
  subdir_totals : Dict String Int := []
  subdir_by_lang : Dict String (Dict String Int) := []
deriving DecidableEq

/-- Method `LOCSnapshot.subdir_pct`: percentage of the repository total contributed
by a subdirectory; Python float arithmetic is modelled exactly over `ℚ`. -/
def LOCSnapshot.subdir_pct (s : LOCSnapshot) (subdir : String) : ℚ :=
  if s.repo_total = 0 then 0
  else ((dictGetD s.subdir_totals subdir 0 : Int) : ℚ) / (s.repo_total : ℚ) * 100

/-- Normalization of one tracked subdirectory: `sd.strip("/") + "/"`. -/
def normalizeSubdir (sd : String) : String :=
  pyStripSlashes sd ++ "/"

/-- One iteration of the `for sd in subdirs:` loop: query the path oracle,
and either count scoped to the path or record `(0, {})` without invoking the
extractor. -/
def processSubdir (env : Env) (commit sd : String)
    (acc : Dict String Int × Dict String (Dict String Int)) (st : St) :
    Except PyErr (Dict String Int × Dict String (Dict String Int)) × St :=
  match has_subpath env commit sd st with
  | (.error e, st₁) => (.error e, st₁)
  | (.ok true, st₁) =>
    match cloc_from_archive env commit (some sd) st₁ with
    | (.error e, st₂) => (.error e, st₂)
    | (.ok (total, byLang), st₂) =>
      (.ok (dictInsert sd total acc.1, dictInsert sd byLang acc.2), st₂)
  | (.ok false, st₁) =>
    (.ok (dictInsert sd 0 acc.1, dictInsert sd [] acc.2), st₁)

/-- The whole `for sd in subdirs:` loop. -/
def processSubdirs (env : Env) (commit : String) :
    List String → (Dict String Int × Dict String (Dict String Int)) → St →
    Except PyErr (Dict String Int × Dict String (Dict String Int)) × St
  | [], acc, st => (.ok acc, st)
  | sd :: rest, acc, st =>
    match processSubdir env commit sd acc st with
    | (.error e, st₁) => (.error e, st₁)
    | (.ok acc₁, st₁) => processSubdirs env commit rest acc₁ st₁

/-- One iteration of the `for i, entry in enumerate(commits)` loop: the
whole-repo count, the subdirectory loop, and the `LOCSnapshot` construction.
The optional progress callback is a pure notification and is not modelled. -/
def snapshotForEntry (env : Env) (subdirsN : List String) (e : MonthEntry)
    (st : St) : Except PyErr LOCSnapshot × St :=
  match cloc_from_archive env e.hash none st with
  | (.error err, st₁) => (.error err, st₁)
  | (.ok (repoTotal, repoByLang), st₁) =>
    match processSubdirs env e.hash subdirsN ([], []) st₁ with
    | (.error err, st₂) => (.error err, st₂)
    | (.ok (sdTotals, sdByLang), st₂) =>
      (.ok { month := e.month, commit_hash := e.hash, commit_date := e.date,
             repo_total := repoTotal, repo_by_lang := repoByLang,
             subdir_totals := sdTotals, subdir_by_lang := sdByLang }, st₂)

/-- The loop over the month entries; an exception in any iteration aborts the
whole call, discarding the snapshots accumulated so far. -/
def collectLoop (env : Env) (subdirsN : List String) :
    List MonthEntry → St → Except PyErr (List LOCSnapshot) × St
  | [], st => (.ok [], st)
  | e :: rest, st =>
    match snapshotForEntry env subdirsN e st with
    | (.error err, st₁) => (.error err, st₁)
    | (.ok snap, st₁) =>
      match collectLoop env subdirsN rest st₁ with
      | (.error err, st₂) => (.error err, st₂)
      | (.ok snaps, st₂) => (.ok (snap :: snaps), st₂)

/-- Function `collect_snapshots(repo_path, branch, subdirs, on_progress)`: select the
monthly commits (a `RuntimeError` there propagates, yielding no snapshot
list at all), normalize the tracked subdirectories, and run the per-month
loop. A `None` subdirectory argument is the empty list. -/
def collect_snapshots (env : Env) (branch : String) (subdirs : List String)
    (st : St) : Except PyErr (List LOCSnapshot) × St :=
  match get_monthly_commits env branch with
  | .error e => (.error e, st)
  | .ok commits => collectLoop env (subdirs.map normalizeSubdir) commits st

/-! ### Reference predicates used to state the claims -/

/-- The last element of a list satisfying `p`, if any. -/
def lastWith {α : Type} (p : α → Bool) : List α → Option α
  | [] => none
  | x :: xs =>
    match lastWith p xs with
    | some y => some y
    | none => if p x then some x else none

/-- The month key a git log line is bucketed under: the first seven
characters of its second whitespace token. -/
def lineMonth (line : String) : String :=
  match pySplitWs line with
  | _ :: d :: _ => strTake d 7
  | _ => ""

/-- The month entry a well-formed git log line produces (the value
`parseLogLine` wraps in `.ok`). -/
def entryOfLine (line : String) : MonthEntry :=
  match pySplitWs line with
  | h :: d :: t :: _ => { hash := h, date := d ++ "T" ++ t, month := strTake d 7 }
  | _ => { hash := "", date := "", month := "" }

/-- A git log line carrying at least hash, date and time tokens, as
`--format=%H %ai` output always does. -/
def wfLogLine (line : String) : Prop :=
  3 ≤ (pySplitWs line).length

instance (line : String) : Decidable (wfLogLine line) := by
  unfold wfLogLine; infer_instance

/-- How the parsing loop of `_cloc_from_archive` treats one output row of
the counting tool: skipped, the reserved aggregate row, a per-language row,
or a row whose processing raises. Derived from the row-handling control
flow of that loop. -/
inductive RowKind : Type where
  | skip
  | sumRow (code : Int)
  | langRow (lang : String) (code : Int)
  | bad (e : PyErr)
deriving DecidableEq

/-- Classify one cloc output row; mirrors one iteration of the parsing
loop. -/
def rowKindOf (line : String) : RowKind :=
  if listStartsWith ("files").toList line.toList then .skip
  else
    match line.toList with
    | [] => .bad .indexError
    | c :: _ =>
      if ¬ c.isDigit then .skip
      else
        let parts := pySplitComma line
        if parts.length < 5 then .skip
        else
          match pyInt (parts.getD 4 "") with
          | none => .bad .valueError
          | some code =>
            if parts.getD 1 "" = "SUM" then .sumRow code
            else .langRow (parts.getD 1 "") code

/-- Whether processing the row raises an exception. -/
def isBadRow (line : String) : Bool :=
  match rowKindOf line with
  | .bad _ => true
  | _ => false

/-- Whether the row is the reserved `SUM` aggregate row. -/
def isSumRow (line : String) : Bool :=
  match rowKindOf line with
  | .sumRow _ => true
  | _ => false

/-- The code count of a `SUM` row (0 for other rows). -/
def sumRowCode (line : String) : Int :=
  match rowKindOf line with
  | .sumRow c => c
  | _ => 0

/-- The per-language rows of a cloc output, in order. -/
def langRowsOf (lines : List String) : List (String × Int) :=
  lines.filterMap fun l =>
    match rowKindOf l with
    | .langRow lang c => some (lang, c)
    | _ => none

/-- The total the parsing loop ends with, started from `t`: the code count
of the last `SUM` row, if any. -/
def clocTotalSpec (lines : List String) (t : Int) : Int :=
  match lastWith isSumRow lines with
  | some l => sumRowCode l
  | none => t

/-- Fold a row list into a dict by repeated Python dict assignment. -/
def insertAll (b : Dict String Int) : List (String × Int) → Dict String Int
  | [] => b
  | (k, v) :: rest => insertAll (dictInsert k v b) rest

/-! ### Concrete stub environments for evaluating the claims -/

/-- A process that completed with the given return code and stdout. -/
def stubCompleted (rc : Int) (out : String) : ProcResult :=
  .completed ⟨rc, out, ""⟩

/-- The initial state: no temp files, counter at zero, empty trace. -/
def st0 : St := ⟨[], 0, []⟩

/-- A three-commit history: two commits in 2024-01, one in 2024-02. -/
def logOk : String :=
  "h1 2024-01-05 10:00:00 +0000\nh2 2024-01-20 11:00:00 +0000\nh3 2024-02-03 12:00:00 +0000"

/-- A consistent counting-tool output: header, one language row, a matching
`SUM` row. -/
def csvOk : String :=
  "files,language,blank,comment,code\n1,Python,2,3,5\n1,SUM,2,3,5"

/-- A counting-tool output whose `SUM` row (7) does not equal the sum of
its language rows (5). -/
def csvMM : String :=
  "1,Python,1,1,5\n1,SUM,1,1,7"

/-- A well-behaved world: the three commits of `logOk`, a tracked directory
`apps/web` present at every commit, and a counting tool whose output is
`csvOk`. -/
def envOk : Env where
  gitLog := fun _ => stubCompleted 0 logOk
  archive := fun _ _ => stubCompleted 0 "TAR"
  cloc := fun _ => stubCompleted 0 csvOk
  lsTree := fun _ sd => if sd = "apps/web/" then stubCompleted 0 "tree" else stubCompleted 0 ""
  tmpName := fun _ => "/tmp/t.tar"

/-- A world in which `git archive` hits its timeout bound; `git ls-tree`
still reports the tracked directory present. -/
def envArchiveTimeout : Env where
  gitLog := fun _ => stubCompleted 0 "h1 2024-01-05 10:00:00 +0000"
  archive := fun _ _ => .timedOut
  cloc := fun _ => stubCompleted 0 ""
  lsTree := fun _ _ => stubCompleted 0 "tree"
  tmpName := fun _ => "/tmp/t.tar"

/-- A world in which `git archive` exits non-zero. -/
def envArchiveFails : Env where
  gitLog := fun _ => stubCompleted 0 "h1 2024-01-05 10:00:00 +0000"
  archive := fun _ _ => stubCompleted 1 ""
  cloc := fun _ => stubCompleted 0 ""
  lsTree := fun _ _ => stubCompleted 0 "tree"
  tmpName := fun _ => "/tmp/t.tar"

/-- A world in which `git archive` succeeds but `cloc` exits non-zero. -/
def envClocFails : Env where
  gitLog := fun _ => stubCompleted 0 "h1 2024-01-05 10:00:00 +0000"
  archive := fun _ _ => stubCompleted 0 "TAR"
  cloc := fun _ => stubCompleted 2 ""
  lsTree := fun _ _ => stubCompleted 0 "tree"
  tmpName := fun _ => "/tmp/t.tar"

/-- A world in which `git archive` succeeds but `cloc` hits its timeout
bound. -/
def envClocTimeout : Env where
  gitLog := fun _ => stubCompleted 0 "h1 2024-01-05 10:00:00 +0000"
  archive := fun _ _ => stubCompleted 0 "TAR"
  cloc := fun _ => .timedOut
  lsTree := fun _ _ => stubCompleted 0 "tree"
  tmpName := fun _ => "/tmp/t.tar"

/-- A world whose counting tool emits a `SUM` row that does not match the
sum of its per-language rows. -/
def envSumMismatch : Env where
  gitLog := fun _ => stubCompleted 0 "h1 2024-01-05 10:00:00 +0000"
  archive := fun _ _ => stubCompleted 0 "TAR"
  cloc := fun _ => stubCompleted 0 csvMM
  lsTree := fun _ _ => stubCompleted 0 "tree"
  tmpName := fun _ => "/tmp/t.tar"

/-- A world whose `git log` exits non-zero (unknown branch, unreadable
repository). -/
def envLogFails : Env where
  gitLog := fun _ => stubCompleted 128 ""
  archive := fun _ _ => stubCompleted 0 "TAR"
  cloc := fun _ => stubCompleted 0 ""
  lsTree := fun _ _ => stubCompleted 0 ""
  tmpName := fun _ => "/tmp/t.tar"

/-- A world whose branch has zero commits: `git log` succeeds with empty
output. -/
def envEmptyLog : Env where
  gitLog := fun _ => stubCompleted 0 ""
  archive := fun _ _ => stubCompleted 0 "TAR"
  cloc := fun _ => stubCompleted 0 ""
  lsTree := fun _ _ => stubCompleted 0 ""
  tmpName := fun _ => "/tmp/t.tar"

/-- The snapshot `collect_snapshots envOk "main" ["apps/web", "lib"] st0`
produces for 2024-01: derived from `h2`, the later January commit. -/
def snapJanOk : LOCSnapshot :=
  { month := "2024-01", commit_hash := "h2", commit_date := "2024-01-20T11:00:00",
    repo_total := 5, repo_by_lang := [("Python", 5)],
    subdir_totals := [("apps/web/", 5), ("lib/", 0)],
    subdir_by_lang := [("apps/web/", [("Python", 5)]), ("lib/", [])] }

/-- The snapshot the same run produces for 2024-02. -/
def snapFebOk : LOCSnapshot :=
  { month := "2024-02", commit_hash := "h3", commit_date := "2024-02-03T12:00:00",
    repo_total := 5, repo_by_lang := [("Python", 5)],
    subdir_totals := [("apps/web/", 5), ("lib/", 0)],
    subdir_by_lang := [("apps/web/", [("Python", 5)]), ("lib/", [])] }

/-- The single snapshot `collect_snapshots envSumMismatch "main" [] st0`
produces: the parser accepted `csvMM`, so the total (7) disagrees with the
per-language sum (5). -/
def snapMM : LOCSnapshot :=
  { month := "2024-01", commit_hash := "h1", commit_date := "2024-01-05T10:00:00",
    repo_total := 7, repo_by_lang := [("Python", 5)],
    subdir_totals := [], subdir_by_lang := [] }

/-- A snapshot with the dataclass defaults: zero total, empty dicts. -/
def snapZero : LOCSnapshot :=
  { month := "2024-03", commit_hash := "h9", commit_date := "2024-03-01T00:00:00" }

/-! ## Lemmas -/

/-! ### Dict lemmas -/

theorem dictLookup_dictInsert {α β : Type} [DecidableEq α] (k : α) (v : β)
    (d : Dict α β) (m : α) :
    dictLookup (dictInsert k v d) m = if m = k then some v else dictLookup d m := by
  induction d with
  | nil => simp [dictInsert, dictLookup]
  | cons p rest ih =>
    obtain ⟨k₁, v₁⟩ := p
    by_cases h₁ : k₁ = k
    · subst h₁
      by_cases h₂ : m = k₁ <;> simp [dictInsert, dictLookup, h₂]
    · by_cases h₂ : m = k₁
      · subst h₂
        simp [dictInsert, dictLookup, h₁]
      · simp [dictInsert, dictLookup, h₁, h₂, ih]

theorem dictKeys_dictInsert {α β : Type} [DecidableEq α] (k : α) (v : β)
    (d : Dict α β) :
    dictKeys (dictInsert k v d) =
      if k ∈ dictKeys d then dictKeys d else dictKeys d ++ [k] := by
  induction d with
  | nil => simp [dictInsert, dictKeys]
  | cons p rest ih =>
    obtain ⟨k₁, v₁⟩ := p
    by_cases h₁ : k₁ = k
    · subst h₁; simp [dictInsert, dictKeys]
    · have hne : ¬ k = k₁ := fun h => h₁ h.symm
      simp only [dictInsert, if_neg h₁, dictKeys, List.map_cons] at ih ⊢
      rw [ih]
      by_cases h₂ : k ∈ List.map Prod.fst rest
      · simp [h₂, List.mem_cons, hne]
      · simp [h₂, List.mem_cons, hne]

theorem mem_dictKeys_dictInsert {α β : Type} [DecidableEq α] (k : α) (v : β)
    (d : Dict α β) (m : α) :
    m ∈ dictKeys (dictInsert k v d) ↔ m = k ∨ m ∈ dictKeys d := by
  rw [dictKeys_dictInsert]
  by_cases h : k ∈ dictKeys d
  · simp only [h, if_true]
    constructor
    · intro hm; exact Or.inr hm
    · rintro (rfl | hm)
      · exact h
      · exact hm
  · simp [h, or_comm]

theorem nodup_dictKeys_dictInsert {α β : Type} [DecidableEq α] (k : α) (v : β)
    (d : Dict α β) (h : (dictKeys d).Nodup) :
    (dictKeys (dictInsert k v d)).Nodup := by
  rw [dictKeys_dictInsert]
  by_cases hk : k ∈ dictKeys d
  · simpa [hk]
  · simpa [hk, List.nodup_append] using h

theorem dictLookup_isSome_iff {α β : Type} [DecidableEq α] (d : Dict α β) (m : α) :
    (dictLookup d m).isSome ↔ m ∈ dictKeys d := by
  induction d with
  | nil => simp [dictLookup, dictKeys]
  | cons p rest ih =>
    obtain ⟨k₁, v₁⟩ := p
    by_cases h : m = k₁ <;> simp [dictLookup, dictKeys, h, ih]

theorem dictLookup_eq_none {α β : Type} [DecidableEq α] (d : Dict α β) (m : α)
    (h : m ∉ dictKeys d) : dictLookup d m = none := by
  have := (dictLookup_isSome_iff d m).not.mpr h
  cases hl : dictLookup d m
  · rfl
  · rw [hl] at this; simp at this

theorem dictInsert_notMem_eq_append {α β : Type} [DecidableEq α] (k : α) (v : β)
    (d : Dict α β) (h : k ∉ dictKeys d) : dictInsert k v d = d ++ [(k, v)] := by
  induction d with
  | nil => rfl
  | cons p rest ih =>
    obtain ⟨k₁, v₁⟩ := p
    simp only [dictKeys, List.map_cons, List.mem_cons] at h
    push_neg at h
    have h₁ : ¬ k₁ = k := fun hh => h.1 hh.symm
    simp only [dictInsert, if_neg h₁, List.cons_append, List.cons.injEq, true_and]
    exact ih h.2

/-! ### lastWith lemmas -/

theorem lastWith_isSome {α : Type} (p : α → Bool) (xs : List α) :
    (lastWith p xs).isSome ↔ ∃ x ∈ xs, p x = true := by
  induction xs with
  | nil => simp [lastWith]
  | cons x xs ih =>
    cases h : lastWith p xs with
    | some y =>
      rw [h] at ih
      simp only [Option.isSome_some, true_iff] at ih
      simp only [lastWith, h, Option.isSome_some, true_iff, List.mem_cons]
      obtain ⟨z, hz, hpz⟩ := ih
      exact ⟨z, Or.inr hz, hpz⟩
    | none =>
      rw [h] at ih
      have hno : ¬ ∃ z ∈ xs, p z = true := fun hh =>
        absurd (ih.mpr hh) (by simp)
      simp only [lastWith, h, List.mem_cons]
      by_cases hp : p x
      · simp only [hp, if_true, Option.isSome_some, true_iff]
        exact ⟨x, Or.inl rfl, hp⟩
      · refine iff_of_false (by simp [hp]) ?_
        rintro ⟨z, hz | hz, hpz⟩
        · exact hp (hz ▸ hpz)
        · exact hno ⟨z, hz, hpz⟩

theorem lastWith_mem {α : Type} (p : α → Bool) (xs : List α) (x : α)
    (h : lastWith p xs = some x) : x ∈ xs ∧ p x = true := by
  induction xs with
  | nil => simp [lastWith] at h
  | cons y ys ih =>
    simp only [lastWith] at h
    cases hy : lastWith p ys with
    | some z =>
      rw [hy] at h
      obtain ⟨hz, hpz⟩ := ih (hy.trans h)
      exact ⟨List.mem_cons_of_mem y hz, hpz⟩
    | none =>
      rw [hy] at h
      by_cases hp : p y
      · simp only [hp, if_true, Option.some.injEq] at h
        subst h
        exact ⟨List.mem_cons_self y ys, hp⟩
      · simp [hp] at h

theorem lastWith_congr {α : Type} (p q : α → Bool) (xs : List α)
    (h : ∀ x ∈ xs, p x = q x) : lastWith p xs = lastWith q xs := by
  induction xs with
  | nil => rfl
  | cons x xs ih =>
    have hx := h x (List.mem_cons_self x xs)
    have htail := ih fun y hy => h y (List.mem_cons_of_mem x hy)
    simp [lastWith, htail, hx]

theorem lastWith_map {α β : Type} (p : β → Bool) (f : α → β) (xs : List α) :
    lastWith p (xs.map f) = (lastWith (fun x => p (f x)) xs).map f := by
  induction xs with
  | nil => rfl
  | cons x xs ih =>
    simp only [List.map_cons, lastWith, ih]
    cases lastWith (fun x => p (f x)) xs with
    | some y => rfl
    | none =>
      by_cases hp : p (f x) <;> simp [hp]

/-! ### Code-point lexicographic order -/

theorem listCharLe_total (a b : List Char) :
    listCharLe a b = true ∨ listCharLe b a = true := by
  induction a generalizing b with
  | nil => exact Or.inl rfl
  | cons x xs ih =>
    cases b with
    | nil => exact Or.inr rfl
    | cons y ys =>
      rcases Nat.lt_trichotomy x.toNat y.toNat with h | h | h
      · exact Or.inl (by simp [listCharLe, h])
      · have hxy : ¬ x.toNat < y.toNat := by omega
        have hyx : ¬ y.toNat < x.toNat := by omega
        rcases ih ys with hle | hle
        · exact Or.inl (by simp [listCharLe, hxy, hyx, hle])
        · exact Or.inr (by simp [listCharLe, hxy, hyx, hle])
      · exact Or.inr (by simp [listCharLe, h])

theorem listCharLe_trans {a b c : List Char} (hab : listCharLe a b = true)
    (hbc : listCharLe b c = true) : listCharLe a c = true := by
  induction a generalizing b c with
  | nil => rfl
  | cons x xs ih =>
    cases b with
    | nil => simp [listCharLe] at hab
    | cons y ys =>
      cases c with
      | nil => simp [listCharLe] at hbc
      | cons z zs =>
        simp only [listCharLe] at hab hbc ⊢
        by_cases h₁ : x.toNat < y.toNat <;> by_cases h₂ : y.toNat < z.toNat
        · simp [show x.toNat < z.toNat by omega]
        · by_cases h₃ : z.toNat < y.toNat
          · simp [h₂, h₃] at hbc
          · have hyz : y.toNat = z.toNat := by omega
            simp [show x.toNat < z.toNat by omega]
        · by_cases h₃ : y.toNat < x.toNat
          · simp [h₁, h₃] at hab
          · simp [show x.toNat < z.toNat by omega]
        · by_cases h₃ : y.toNat < x.toNat
          · simp [h₁, h₃] at hab
          · by_cases h₄ : z.toNat < y.toNat
            · simp [h₂, h₄] at hbc
            · simp only [h₁, h₃, if_false, ite_false] at hab
              simp only [h₂, h₄, if_false, ite_false] at hbc
              simp only [show ¬ x.toNat < z.toNat by omega, if_false,
                show ¬ z.toNat < x.toNat by omega, ite_false]
              exact ih hab hbc

theorem listCharLt_of_le_of_ne {a b : List Char} (hle : listCharLe a b = true)
    (hne : a ≠ b) : listCharLt a b = true := by
  induction a generalizing b with
  | nil =>
    cases b with
    | nil => exact absurd rfl hne
    | cons y ys => rfl
  | cons x xs ih =>
    cases b with
    | nil => simp [listCharLe] at hle
    | cons y ys =>
      simp only [listCharLe] at hle
      simp only [listCharLt]
      by_cases h₁ : x.toNat < y.toNat
      · simp [h₁]
      · by_cases h₂ : y.toNat < x.toNat
        · simp [h₁, h₂] at hle
        · have hn : x.toNat = y.toNat := by omega
          have hx : x = y := Char.ext (UInt32.ext hn)
          subst hx
          simp only [h₁, if_false, ite_false] at hle ⊢
          have hxs : xs ≠ ys := fun hh => hne (by rw [hh])
          exact ih hle hxs

theorem string_toList_inj {a b : String} (h : a.toList = b.toList) : a = b :=
  congrArg String.mk h

theorem strLt_of_le_of_ne {a b : String} (hle : strLe a b = true) (hne : a ≠ b) :
    strLt a b = true :=
  listCharLt_of_le_of_ne hle fun hh => hne (string_toList_inj hh)

/-! ### sortStrings lemmas -/

theorem perm_ordInsert (a : String) (l : List String) :
    List.Perm (ordInsert a l) (a :: l) := by
  induction l with
  | nil => exact List.Perm.refl _
  | cons b l ih =>
    simp only [ordInsert]
    by_cases h : strLe a b
    · simp [h]
    · simp only [h, if_false, ite_false]
      exact (ih.cons b).trans (List.Perm.swap a b l)

theorem mem_ordInsert (x a : String) (l : List String) :
    x ∈ ordInsert a l ↔ x = a ∨ x ∈ l := by
  rw [(perm_ordInsert a l).mem_iff]
  simp

theorem sorted_ordInsert (a : String) (l : List String)
    (h : l.Pairwise (fun x y => strLe x y = true)) :
    (ordInsert a l).Pairwise (fun x y => strLe x y = true) := by
  induction l with
  | nil => simp [ordInsert]
  | cons b l ih =>
    rcases List.pairwise_cons.mp h with ⟨hb, hl⟩
    simp only [ordInsert]
    by_cases hab : strLe a b
    · simp only [hab, if_true, ite_true]
      refine List.pairwise_cons.mpr ⟨?_, h⟩
      intro x hx
      rcases List.mem_cons.mp hx with rfl | hx
      · exact hab
      · exact listCharLe_trans hab (hb x hx)
    · have hba : strLe b a = true := by
        rcases listCharLe_total a.toList b.toList with hh | hh
        · exact absurd hh hab
        · exact hh
      simp only [hab, if_false, ite_false]
      refine List.pairwise_cons.mpr ⟨?_, ih hl⟩
      intro x hx
      rcases (mem_ordInsert x a l).mp hx with rfl | hx
      · exact hba
      · exact hb x hx

theorem perm_sortStrings (l : List String) : List.Perm (sortStrings l) l := by
  induction l with
  | nil => exact List.Perm.refl _
  | cons a l ih =>
    exact (perm_ordInsert a (sortStrings l)).trans (ih.cons a)

theorem sorted_sortStrings (l : List String) :
    (sortStrings l).Pairwise (fun x y => strLe x y = true) := by
  induction l with
  | nil => simp [sortStrings]
  | cons a l ih => exact sorted_ordInsert a (sortStrings l) ih

/-! ### Commit selector lemmas -/

theorem parseLogLine_wf (line : String) (hw : wfLogLine line) :
    parseLogLine line = .ok (entryOfLine line) ∧
      (entryOfLine line).month = lineMonth line := by
  unfold wfLogLine at hw
  rcases hp : pySplitWs line with _ | ⟨h, _ | ⟨d, _ | ⟨t, r⟩⟩⟩
  · rw [hp] at hw; simp at hw
  · rw [hp] at hw; simp at hw
  · rw [hp] at hw; simp at hw
  · simp [parseLogLine, entryOfLine, lineMonth, hp]

theorem buildMonthly_lookup (lines : List String)
    (hw : ∀ l ∈ lines, wfLogLine l) (b : Dict String MonthEntry) :
    ∃ d, buildMonthly lines b = .ok d ∧
      ∀ m, dictLookup d m =
        match lastWith (fun l => lineMonth l == m) lines with
        | some l => some (entryOfLine l)
        | none => dictLookup b m := by
  induction lines generalizing b with
  | nil => exact ⟨b, rfl, fun m => rfl⟩
  | cons l ls ih =>
    have hwl := hw l (List.mem_cons_self l ls)
    obtain ⟨hparse, hmonth⟩ := parseLogLine_wf l hwl
    obtain ⟨d, hd, hlook⟩ :=
      ih (fun x hx => hw x (List.mem_cons_of_mem l hx))
        (dictInsert (entryOfLine l).month (entryOfLine l) b)
    refine ⟨d, by simp [buildMonthly, hparse, hd], fun m => ?_⟩
    rw [hlook m]
    simp only [lastWith]
    cases hlast : lastWith (fun l₀ => lineMonth l₀ == m) ls with
    | some y => rfl
    | none =>
      rw [dictLookup_dictInsert]
      by_cases hm : lineMonth l = m
      · simp [hmonth, hm]
      · have hm' : ¬ m = lineMonth l := fun hh => hm hh.symm
        simp [hmonth, hm, hm']

theorem buildMonthly_nodup (lines : List String)
    (hw : ∀ l ∈ lines, wfLogLine l) (b : Dict String MonthEntry)
    (d : Dict String MonthEntry) (h : buildMonthly lines b = .ok d)
    (hb : (dictKeys b).Nodup) : (dictKeys d).Nodup := by
  induction lines generalizing b with
  | nil =>
    obtain rfl : b = d := by injection h
    exact hb
  | cons l ls ih =>
    have hwl := hw l (List.mem_cons_self l ls)
    obtain ⟨hparse, _⟩ := parseLogLine_wf l hwl
    simp only [buildMonthly, hparse] at h
    exact ih (fun x hx => hw x (List.mem_cons_of_mem l hx)) _ h
      (nodup_dictKeys_dictInsert _ _ _ hb)

theorem lookupAll_ok (d : Dict String MonthEntry) (ks : List String)
    (h : ∀ k ∈ ks, ∃ e, dictLookup d k = some e) :
    ∃ out, lookupAll d ks = .ok out ∧
      List.Forall₂ (fun k e => dictLookup d k = some e) ks out := by
  induction ks with
  | nil => exact ⟨[], rfl, List.Forall₂.nil⟩
  | cons k ks ih =>
    obtain ⟨e, he⟩ := h k (List.mem_cons_self k ks)
    obtain ⟨out, hout, hfa⟩ := ih fun x hx => h x (List.mem_cons_of_mem k hx)
    exact ⟨e :: out, by simp [lookupAll, he, hout], List.Forall₂.cons he hfa⟩

theorem forall₂_lookup_map_eq {d : Dict String MonthEntry}
    {ks : List String} {out : List MonthEntry}
    (hfa : List.Forall₂ (fun k e => dictLookup d k = some e) ks out)
    (hco : ∀ k e, dictLookup d k = some e → e.month = k) :
    out.map MonthEntry.month = ks := by
  induction hfa with
  | nil => rfl
  | cons h _ ih => simp [hco _ _ h, ih]

theorem forall₂_mem_right {α β : Type} {R : α → β → Prop} {ks : List α}
    {out : List β} (hfa : List.Forall₂ R ks out) (e : β) (he : e ∈ out) :
    ∃ k ∈ ks, R k e := by
  induction hfa with
  | nil => cases he
  | cons h _ ih =>
    rcases List.mem_cons.mp he with rfl | he'
    · exact ⟨_, List.mem_cons_self _ _, h⟩
    · obtain ⟨k, hk, hr⟩ := ih he'
      exact ⟨k, List.mem_cons_of_mem _ hk, hr⟩

/-- The characterization of `monthlyFromLines` used by the claims: one
sorted entry per month, each derived from the last log line bucketed under
that month. -/
theorem monthlyFromLines_spec (lines : List String)
    (hw : ∀ l ∈ lines, wfLogLine l) (hne : lines ≠ []) :
    ∃ out, monthlyFromLines lines = .ok out ∧ out ≠ [] ∧
      out.Pairwise (fun a b => strLt a.month b.month = true) ∧
      (∀ m, (∃ e ∈ out, e.month = m) ↔ ∃ l ∈ lines, lineMonth l = m) ∧
      ∀ e ∈ out, ∃ l, lastWith (fun l₀ => lineMonth l₀ == e.month) lines = some l ∧
        e = entryOfLine l := by
  obtain ⟨d, hd, hlook⟩ := buildMonthly_lookup lines hw []
  have hnodup : (dictKeys d).Nodup :=
    buildMonthly_nodup lines hw [] d hd (by simp [dictKeys])
  -- every sorted key is a key of d, hence has an entry
  have hks_mem : ∀ k, k ∈ sortStrings (dictKeys d) ↔ k ∈ dictKeys d := fun k =>
    (perm_sortStrings (dictKeys d)).mem_iff
  have hlookup_some : ∀ k ∈ sortStrings (dictKeys d), ∃ e, dictLookup d k = some e := by
    intro k hk
    have := (dictLookup_isSome_iff d k).mpr ((hks_mem k).mp hk)
    cases hl : dictLookup d k
    · rw [hl] at this; simp at this
    · exact ⟨_, rfl⟩
  obtain ⟨out, hout, hfa⟩ := lookupAll_ok d (sortStrings (dictKeys d)) hlookup_some
  -- entries are keyed by their own month
  have hco : ∀ k e, dictLookup d k = some e → e.month = k := by
    intro k e he
    rw [hlook k] at he
    cases hlast : lastWith (fun l₀ => lineMonth l₀ == k) lines with
    | none => rw [hlast] at he; simp [dictLookup] at he
    | some l =>
      rw [hlast] at he
      obtain ⟨hl, hpl⟩ := lastWith_mem _ lines l hlast
      have he' : e = entryOfLine l := by injection he with hh; exact hh.symm
      subst he'
      rw [(parseLogLine_wf l (hw l hl)).2]
      exact beq_iff_eq.mp hpl
  have hmap : out.map MonthEntry.month = sortStrings (dictKeys d) :=
    forall₂_lookup_map_eq hfa hco
  -- membership in d by month
  have hmem_d : ∀ m, m ∈ dictKeys d ↔ ∃ l ∈ lines, lineMonth l = m := by
    intro m
    rw [← dictLookup_isSome_iff]
    rw [hlook m]
    cases hlast : lastWith (fun l₀ => lineMonth l₀ == m) lines with
    | none =>
      have := (lastWith_isSome (fun l₀ => lineMonth l₀ == m) lines)
      rw [hlast] at this
      simp only [Option.isSome_none] at this
      simp only [dictLookup, Option.isSome_none]
      constructor
      · intro hh; cases hh
      · intro ⟨l, hl, hlm⟩
        exact absurd (this.mpr ⟨l, hl, beq_iff_eq.mpr hlm⟩) (by simp)
    | some l =>
      obtain ⟨hl, hpl⟩ := lastWith_mem _ lines l hlast
      simp only [Option.isSome_some, true_iff]
      exact ⟨l, hl, beq_iff_eq.mp hpl⟩
  refine ⟨out, ?_, ?_, ?_, ?_, ?_⟩
  · simp [monthlyFromLines, hd, hout]
  · -- nonempty
    obtain ⟨l₀, ls⟩ := List.exists_cons_of_ne_nil hne |>.imp (fun _ h => h)
    obtain ⟨ls, rfl⟩ := ls
    have : lineMonth l₀ ∈ dictKeys d :=
      (hmem_d (lineMonth l₀)).mpr ⟨l₀, List.mem_cons_self _ _, rfl⟩
    have : lineMonth l₀ ∈ out.map MonthEntry.month := by
      rw [hmap]; exact (hks_mem _).mpr this
    intro hout_nil
    rw [hout_nil] at this
    cases this
  · -- strictly ascending
    have hsorted := sorted_sortStrings (dictKeys d)
    have hnodup' : (sortStrings (dictKeys d)).Nodup :=
      (perm_sortStrings (dictKeys d)).nodup_iff.mpr hnodup
    have hlt : (sortStrings (dictKeys d)).Pairwise (fun a b => strLt a b = true) :=
      (hsorted.and hnodup').imp fun h => strLt_of_le_of_ne h.1 h.2
    rw [← hmap] at hlt
    exact (List.pairwise_map).mp hlt
  · -- one entry per month of the history
    intro m
    have h₁ : (∃ e ∈ out, e.month = m) ↔ m ∈ out.map MonthEntry.month := by
      simp [List.mem_map]
    rw [h₁, hmap, hks_mem, hmem_d]
  · -- each entry is the last line of its month
    intro e he
    obtain ⟨k, _, hk⟩ := forall₂_mem_right hfa e he
    have hek : e.month = k := hco k e hk
    subst hek
    rw [hlook e.month] at hk
    cases hlast : lastWith (fun l₀ => lineMonth l₀ == e.month) lines with
    | none => rw [hlast] at hk; simp [dictLookup] at hk
    | some l =>
      rw [hlast] at hk
      have : e = entryOfLine l := by injection hk with hh; exact hh.symm
      exact ⟨l, rfl, this⟩

/-! ### Counting-tool output parser lemmas -/

/-- One parsing-loop iteration dispatches exactly on the row kind. -/
theorem parseClocGo_cons (line : String) (rest : List String) (t : Int)
    (b : Dict String Int) :
    parseClocGo (line :: rest) t b =
      match rowKindOf line with
      | .skip => parseClocGo rest t b
      | .sumRow c => parseClocGo rest c b
      | .langRow lang c => parseClocGo rest t (dictInsert lang c b)
      | .bad e => .error e := by
  simp only [parseClocGo, rowKindOf]
  by_cases h1 : listStartsWith ("files").toList line.toList = true
  · simp only [h1]; rfl
  · rw [Bool.not_eq_true] at h1
    simp only [h1, Bool.false_eq_true, if_false, ite_false]
    cases hl : line.toList with
    | nil => rfl
    | cons c cs =>
      by_cases h2 : c.isDigit = true
      · simp only [h2, not_true, if_false, ite_false, not_false_iff, if_true, ite_true]
        by_cases h3 : (pySplitComma line).length < 5
        · rw [if_pos h3, if_pos h3]
        · rw [if_neg h3, if_neg h3]
          cases hp : pyInt ((pySplitComma line).getD 4 "") with
          | none => rfl
          | some code =>
            dsimp only
            by_cases h5 : (pySplitComma line).getD 1 "" = "SUM"
            · rw [if_pos h5, if_pos h5]
            · rw [if_neg h5, if_neg h5]
      · rw [Bool.not_eq_true] at h2
        simp only [h2]; rfl

theorem langRowsOf_cons (l : String) (ls : List String) :
    langRowsOf (l :: ls) =
      match rowKindOf l with
      | .langRow lang c => (lang, c) :: langRowsOf ls
      | _ => langRowsOf ls := by
  simp only [langRowsOf, List.filterMap_cons]
  cases rowKindOf l <;> rfl

theorem clocTotalSpec_cons (l : String) (ls : List String) (t : Int) :
    clocTotalSpec (l :: ls) t =
      clocTotalSpec ls (if isSumRow l then sumRowCode l else t) := by
  unfold clocTotalSpec
  simp only [lastWith]
  cases lastWith isSumRow ls with
  | some y => rfl
  | none => by_cases hp : isSumRow l <;> simp [hp]

/-- On bad-row-free input the parsing loop returns normally, with the total
taken from the last `SUM` row and the dict folded from the language rows. -/
theorem parseClocGo_noBad (lines : List String)
    (h : ∀ l ∈ lines, isBadRow l = false) (t : Int) (b : Dict String Int) :
    parseClocGo lines t b =
      .ok (clocTotalSpec lines t, insertAll b (langRowsOf lines)) := by
  induction lines generalizing t b with
  | nil => rfl
  | cons l ls ih =>
    have hl := h l (List.mem_cons_self l ls)
    have hls := fun x hx => h x (List.mem_cons_of_mem l hx)
    rw [parseClocGo_cons, clocTotalSpec_cons, langRowsOf_cons]
    cases hk : rowKindOf l with
    | bad e => simp [isBadRow, hk] at hl
    | skip =>
      have hsum : isSumRow l = false := by simp [isSumRow, hk]
      rw [hsum]
      simpa using ih hls t b
    | sumRow c =>
      have hsum : isSumRow l = true := by simp [isSumRow, hk]
      have hcode : sumRowCode l = c := by simp [sumRowCode, hk]
      rw [hsum, hcode]
      simpa using ih hls c b
    | langRow lang c =>
      have hsum : isSumRow l = false := by simp [isSumRow, hk]
      rw [hsum]
      simpa [insertAll] using ih hls t (dictInsert lang c b)

theorem mem_dictKeys_insertAll (rows : List (String × Int))
    (b : Dict String Int) (m : String) :
    m ∈ dictKeys (insertAll b rows) ↔
      m ∈ dictKeys b ∨ ∃ c, (m, c) ∈ rows := by
  induction rows generalizing b with
  | nil => simp [insertAll]
  | cons p rows ih =>
    obtain ⟨k, v⟩ := p
    rw [insertAll, ih, mem_dictKeys_dictInsert]
    simp only [List.mem_cons, Prod.mk.injEq]
    constructor
    · rintro ((rfl | hm) | ⟨c, hc⟩)
      · exact Or.inr ⟨v, Or.inl ⟨rfl, rfl⟩⟩
      · exact Or.inl hm
      · exact Or.inr ⟨c, Or.inr hc⟩
    · rintro (hm | ⟨c, ⟨rfl, rfl⟩ | hc⟩)
      · exact Or.inl (Or.inr hm)
      · exact Or.inl (Or.inl rfl)
      · exact Or.inr ⟨c, hc⟩

theorem insertAll_eq_append (rows : List (String × Int)) (b : Dict String Int)
    (hnd : (rows.map Prod.fst).Nodup)
    (hdisj : ∀ k ∈ rows.map Prod.fst, k ∉ dictKeys b) :
    insertAll b rows = b ++ rows := by
  induction rows generalizing b with
  | nil => simp [insertAll]
  | cons p rows ih =>
    obtain ⟨k, v⟩ := p
    rw [List.map_cons] at hnd
    obtain ⟨hk_not, hnd_tail⟩ := List.nodup_cons.mp hnd
    rw [insertAll, dictInsert_notMem_eq_append k v b (hdisj k (by simp))]
    rw [ih (b ++ [(k, v)]) hnd_tail ?_]
    · simp
    · intro k' hk'
      have hk'k : k' ≠ k := fun hh => hk_not (hh ▸ hk')
      have hk'b : k' ∉ dictKeys b := hdisj k' (by simp [hk'])
      simp only [dictKeys, List.map_append, List.map_cons, List.map_nil,
        List.mem_append, List.mem_cons, List.not_mem_nil]
      rintro (hm | hm | hm)
      · exact hk'b hm
      · exact hk'k hm
      · exact hm

theorem dictValuesSum_append (a b : Dict String Int) :
    dictValuesSum (a ++ b) = dictValuesSum a + dictValuesSum b := by
  simp [dictValuesSum]

theorem mem_langRowsOf (lines : List String) (lang : String) (c : Int) :
    (lang, c) ∈ langRowsOf lines ↔
      ∃ l ∈ lines, rowKindOf l = .langRow lang c := by
  unfold langRowsOf
  rw [List.mem_filterMap]
  constructor
  · rintro ⟨l, hl, hf⟩
    refine ⟨l, hl, ?_⟩
    cases hk : rowKindOf l <;> rw [hk] at hf <;> simp at hf
    obtain ⟨h₁, h₂⟩ := hf
    rw [h₁, h₂]
  · rintro ⟨l, hl, hk⟩
    exact ⟨l, hl, by rw [hk]⟩

theorem rowKindOf_langRow_ne_sum {l lang : String} {c : Int}
    (h : rowKindOf l = .langRow lang c) : lang ≠ "SUM" := by
  unfold rowKindOf at h
  by_cases h1 : listStartsWith ("files").toList l.toList = true
  · simp only [h1, if_true, ite_true] at h
    cases h
  · rw [Bool.not_eq_true] at h1
    simp only [h1, Bool.false_eq_true, if_false, ite_false] at h
    cases hl : l.toList with
    | nil => rw [hl] at h; simp at h
    | cons c0 cs =>
      rw [hl] at h
      by_cases h2 : c0.isDigit = true
      · simp only [h2, not_true, if_false, ite_false, not_false_iff,
          if_true, ite_true] at h
        by_cases h3 : (pySplitComma l).length < 5
        · rw [if_pos h3] at h; simp at h
        · rw [if_neg h3] at h
          cases hp : pyInt ((pySplitComma l).getD 4 "") with
          | none => rw [hp] at h; simp at h
          | some code =>
            rw [hp] at h
            dsimp only at h
            by_cases h5 : (pySplitComma l).getD 1 "" = "SUM"
            · rw [if_pos h5] at h; simp at h
            · rw [if_neg h5] at h
              injection h with h₁ h₂
              rw [← h₁]
              exact h5
      · rw [Bool.not_eq_true] at h2
        simp only [h2, Bool.false_eq_true, not_false_iff, if_true, ite_true] at h
        cases h

theorem sum_notMem_langRows (lines : List String) :
    "SUM" ∉ dictKeys (insertAll [] (langRowsOf lines)) := by
  rw [mem_dictKeys_insertAll]
  rintro (hm | ⟨c, hc⟩)
  · simp [dictKeys] at hm
  · obtain ⟨l, _, hk⟩ := (mem_langRowsOf lines ("SUM") c).mp hc
    exact rowKindOf_langRow_ne_sum hk rfl

/-! ### Pipeline lemmas -/

/-- The body of `_cloc_from_archive` never touches the filesystem model:
only the `with tempfile...` header creates and the `finally:` removes. -/
theorem cloc_body_fs (env : Env) (commit : String) (subpath : Option String)
    (tmp : String) (st : St) :
    (cloc_body env commit subpath tmp st).2.fs = st.fs := by
  unfold cloc_body
  cases env.archive commit subpath with
  | timedOut => rfl
  | completed a =>
    dsimp only
    by_cases ha : a.returncode ≠ 0
    · rw [if_pos ha]
    · rw [if_neg ha]
      cases env.cloc a.stdout with
      | timedOut => rfl
      | completed c =>
        dsimp only
        by_cases hc : c.returncode ≠ 0
        · rw [if_pos hc]
        · rw [if_neg hc]

/-- Every `.ok` result of the subdirectory loop body inserts the processed
path into both accumulator dicts. -/
theorem processSubdir_ok_shape (env : Env) (commit sd : String)
    (acc : Dict String Int × Dict String (Dict String Int)) (st : St)
    (acc₁ : Dict String Int × Dict String (Dict String Int)) (st₁ : St)
    (h : processSubdir env commit sd acc st = (.ok acc₁, st₁)) :
    ∃ x y, acc₁ = (dictInsert sd x acc.1, dictInsert sd y acc.2) := by
  unfold processSubdir at h
  rcases hres : has_subpath env commit sd st with ⟨res, st'⟩
  rw [hres] at h
  cases res with
  | error e => simp [Prod.ext_iff] at h
  | ok present =>
    cases present with
    | false =>
      dsimp at h
      rw [Prod.ext_iff] at h
      obtain ⟨h₁, _⟩ := h
      injection h₁ with h₁
      exact ⟨0, [], h₁.symm⟩
    | true =>
      dsimp at h
      rcases h₂ : cloc_from_archive env commit (some sd) st' with ⟨res₂, st''⟩
      rw [h₂] at h
      cases res₂ with
      | error e => simp [Prod.ext_iff] at h
      | ok p =>
        obtain ⟨total, byLang⟩ := p
        dsimp at h
        rw [Prod.ext_iff] at h
        obtain ⟨h₁, _⟩ := h
        injection h₁ with h₁
        exact ⟨total, byLang, h₁.symm⟩

/-- Invariants of the subdirectory loop: on success the two result dicts
have equal key lists whenever the accumulators did, and their keys are the
accumulator keys plus the processed paths. -/
theorem processSubdirs_keys (env : Env) (commit : String) (sds : List String) :
    ∀ acc st t b st₁,
      processSubdirs env commit sds acc st = (.ok (t, b), st₁) →
      (dictKeys acc.1 = dictKeys acc.2 → dictKeys t = dictKeys b) ∧
      ∀ m, (m ∈ dictKeys t ↔ m ∈ dictKeys acc.1 ∨ m ∈ sds) ∧
        (m ∈ dictKeys b ↔ m ∈ dictKeys acc.2 ∨ m ∈ sds) := by
  induction sds with
  | nil =>
    intro acc st t b st₁ h
    unfold processSubdirs at h
    rw [Prod.ext_iff] at h
    obtain ⟨h₁, _⟩ := h
    injection h₁ with h₁
    subst h₁
    exact ⟨fun hh => hh, fun m => ⟨by simp, by simp⟩⟩
  | cons sd sds ih =>
    intro acc st t b st₁ h
    unfold processSubdirs at h
    rcases hres : processSubdir env commit sd acc st with ⟨res, st'⟩
    rw [hres] at h
    cases res with
    | error e => simp [Prod.ext_iff] at h
    | ok acc₁ =>
      dsimp at h
      obtain ⟨x, y, rfl⟩ := processSubdir_ok_shape env commit sd acc st acc₁ st' hres
      obtain ⟨hkeq, hmem⟩ := ih _ st' t b st₁ h
      constructor
      · intro hacc
        apply hkeq
        simp only [dictKeys_dictInsert, hacc]
      · intro m
        obtain ⟨hm1, hm2⟩ := hmem m
        constructor
        · rw [hm1, mem_dictKeys_dictInsert]
          simp only [List.mem_cons]
          tauto
        · rw [hm2, mem_dictKeys_dictInsert]
          simp only [List.mem_cons]
          tauto

/-- Each snapshot built by one month iteration keys its subdirectory dicts
by exactly the paths handed to the loop. -/
theorem snapshotForEntry_subdirs (env : Env) (subdirsN : List String)
    (e : MonthEntry) (st : St) (snap : LOCSnapshot) (st₁ : St)
    (h : snapshotForEntry env subdirsN e st = (.ok snap, st₁)) :
    dictKeys snap.subdir_totals = dictKeys snap.subdir_by_lang ∧
    ∀ m, m ∈ dictKeys snap.subdir_totals ↔ m ∈ subdirsN := by
  unfold snapshotForEntry at h
  rcases h₀ : cloc_from_archive env e.hash none st with ⟨res₀, st'⟩
  rw [h₀] at h
  cases res₀ with
  | error err => simp [Prod.ext_iff] at h
  | ok p =>
    obtain ⟨repoTotal, repoByLang⟩ := p
    dsimp at h
    rcases h₁ : processSubdirs env e.hash subdirsN ([], []) st' with ⟨res₁, st''⟩
    rw [h₁] at h
    cases res₁ with
    | error err => simp [Prod.ext_iff] at h
    | ok q =>
      obtain ⟨sdt, sdbl⟩ := q
      dsimp at h
      rw [Prod.ext_iff] at h
      obtain ⟨h₂, _⟩ := h
      injection h₂ with h₂
      obtain ⟨hkeq, hmem⟩ := processSubdirs_keys env e.hash subdirsN ([], []) st' sdt sdbl st'' h₁
      subst h₂
      refine ⟨hkeq rfl, fun m => ?_⟩
      rw [(hmem m).1]
      simp [dictKeys]

/-- Every snapshot in a successful month loop satisfies the subdirectory
key invariant. -/
theorem collectLoop_subdirs (env : Env) (subdirsN : List String) :
    ∀ entries st snaps st₁,
      collectLoop env subdirsN entries st = (.ok snaps, st₁) →
      ∀ s ∈ snaps, dictKeys s.subdir_totals = dictKeys s.subdir_by_lang ∧
        ∀ m, m ∈ dictKeys s.subdir_totals ↔ m ∈ subdirsN := by
  intro entries
  induction entries with
  | nil =>
    intro st snaps st₁ h s hs
    unfold collectLoop at h
    rw [Prod.ext_iff] at h
    obtain ⟨h₁, _⟩ := h
    injection h₁ with h₁
    rw [← h₁] at hs
    cases hs
  | cons e rest ih =>
    intro st snaps st₁ h s hs
    unfold collectLoop at h
    rcases h₀ : snapshotForEntry env subdirsN e st with ⟨res₀, st'⟩
    rw [h₀] at h
    cases res₀ with
    | error err => simp [Prod.ext_iff] at h
    | ok snap =>
      dsimp at h
      rcases h₁ : collectLoop env subdirsN rest st' with ⟨res₁, st''⟩
      rw [h₁] at h
      cases res₁ with
      | error err => simp [Prod.ext_iff] at h
      | ok snaps' =>
        dsimp at h
        rw [Prod.ext_iff] at h
        obtain ⟨h₂, _⟩ := h
        injection h₂ with h₂
        rw [← h₂] at hs
        rcases List.mem_cons.mp hs with rfl | hs'
        · exact snapshotForEntry_subdirs env subdirsN e st s st' h₀
        · exact ih st' snaps' st'' h₁ s hs'

/-! ## Claims -/

/-- C1: for every non-empty commit history (oldest-first `git log` lines,
each carrying hash, date and time tokens), `get_monthly_commits` returns a
sequence strictly ascending by `YYYY-MM` month key, with exactly one entry
per distinct month occurring in the history, and each entry derived from
the last line of its month in the input ordering (not re-sorted by
timestamp). -/
theorem C1_monthly_commits (env : Env) (branch : String) (c : Completed)
    (hlog : env.gitLog branch = .completed c) (hrc : c.returncode = 0)
    (hw : ∀ l ∈ pySplitlines (pyStrip c.stdout), wfLogLine l)
    (hne : pySplitlines (pyStrip c.stdout) ≠ []) :
    ∃ out, get_monthly_commits env branch = .ok out ∧ out ≠ [] ∧
      out.Pairwise (fun a b => strLt a.month b.month = true) ∧
      (∀ m, (∃ e ∈ out, e.month = m) ↔
        ∃ l ∈ pySplitlines (pyStrip c.stdout), lineMonth l = m) ∧
      ∀ e ∈ out, ∃ l,
        lastWith (fun l₀ => lineMonth l₀ == e.month)
          (pySplitlines (pyStrip c.stdout)) = some l ∧
        e = entryOfLine l := by
  obtain ⟨out, hout, h1, h2, h3, h4⟩ :=
    monthlyFromLines_spec (pySplitlines (pyStrip c.stdout)) hw hne
  refine ⟨out, ?_, h1, h2, h3, h4⟩
  unfold get_monthly_commits
  rw [hlog]
  dsimp only
  rw [if_neg (fun hh => hh hrc)]
  exact hout

theorem C1_witness :
    ∃ out, get_monthly_commits envOk ("main") = .ok out ∧ out ≠ [] ∧
      out.Pairwise (fun a b => strLt a.month b.month = true) ∧
      (∀ m, (∃ e ∈ out, e.month = m) ↔
        ∃ l ∈ pySplitlines (pyStrip logOk), lineMonth l = m) ∧
      ∀ e ∈ out, ∃ l,
        lastWith (fun l₀ => lineMonth l₀ == e.month)
          (pySplitlines (pyStrip logOk)) = some l ∧
        e = entryOfLine l :=
  C1_monthly_commits envOk ("main") ⟨0, logOk, ""⟩ rfl rfl (by decide) (by decide)

/-- C9 counterexample: two log lines identical except for the timezone
offset field produce identical stored timestamps, and the stored timestamp
is the bare `date T time` string: the offset is discarded, refuting that
the stored timestamp includes its timezone offset. -/
theorem C9_counterexample :
    parseLogLine ("abc 2024-05-03 10:00:00 +0530") =
      .ok { hash := "abc", date := "2024-05-03T10:00:00", month := "2024-05" } ∧
    parseLogLine ("abc 2024-05-03 10:00:00 -0800") =
      parseLogLine ("abc 2024-05-03 10:00:00 +0530") := by
  constructor
  · decide
  · decide

/-- C9 amended: the stored timestamp is built from the date and time-of-day
tokens only (`parts[1]` and `parts[2]`; the timezone-offset token
`parts[3]` is never read), and bucketing uses only the first seven
characters, `YYYY-MM`, of the date token. -/
theorem C9_timestamp (line h d t : String) (rest : List String)
    (hp : pySplitWs line = h :: d :: t :: rest) :
    parseLogLine line =
      .ok { hash := h, date := d ++ "T" ++ t, month := strTake d 7 } := by
  simp [parseLogLine, hp]

theorem C9_witness :
    parseLogLine ("abc 2024-05-03 10:00:00 +0530") =
      .ok { hash := "abc", date := "2024-05-03" ++ "T" ++ "10:00:00",
            month := strTake ("2024-05-03") 7 } :=
  C9_timestamp ("abc 2024-05-03 10:00:00 +0530") "abc" "2024-05-03" "10:00:00"
    ["+0530"] (by decide)

/-- C7: a non-zero `git log` exit makes `get_monthly_commits` raise
`RuntimeError` and `collect_snapshots` propagate it, producing no snapshot
sequence and leaving the state untouched; a branch with zero commits
(successful empty output) is not an error and yields the empty sequence. -/
theorem C7_history_failure (env : Env) (branch : String) (subdirs : List String)
    (st : St) (c : Completed) (hlog : env.gitLog branch = .completed c) :
    (c.returncode ≠ 0 →
      get_monthly_commits env branch =
        .error (.runtimeError ("git log failed: " ++ c.stderr)) ∧
      collect_snapshots env branch subdirs st =
        (.error (.runtimeError ("git log failed: " ++ c.stderr)), st)) ∧
    (c.returncode = 0 → pyStrip c.stdout = "" →
      get_monthly_commits env branch = .ok [] ∧
      collect_snapshots env branch subdirs st = (.ok [], st)) := by
  constructor
  · intro hrc
    have hg : get_monthly_commits env branch =
        .error (.runtimeError ("git log failed: " ++ c.stderr)) := by
      unfold get_monthly_commits
      rw [hlog]
      dsimp only
      rw [if_pos hrc]
    refine ⟨hg, ?_⟩
    unfold collect_snapshots
    rw [hg]
  · intro hrc hempty
    have hg : get_monthly_commits env branch = .ok [] := by
      unfold get_monthly_commits
      rw [hlog]
      dsimp only
      rw [if_neg (fun hh => hh hrc), hempty]
      rfl
    refine ⟨hg, ?_⟩
    unfold collect_snapshots
    rw [hg]
    rfl

theorem C7_witness :
    (get_monthly_commits envLogFails ("main") =
      .error (.runtimeError ("git log failed: " ++ "")) ∧
     collect_snapshots envLogFails ("main") ["apps/web"] st0 =
      (.error (.runtimeError ("git log failed: " ++ "")), st0)) ∧
    (get_monthly_commits envEmptyLog ("main") = .ok [] ∧
     collect_snapshots envEmptyLog ("main") ["apps/web"] st0 = (.ok [], st0)) :=
  ⟨(C7_history_failure envLogFails ("main") ["apps/web"] st0 ⟨128, "", ""⟩ rfl).1
     (by decide),
   (C7_history_failure envEmptyLog ("main") ["apps/web"] st0 ⟨0, "", ""⟩ rfl).2
     rfl rfl⟩

/-- C2 counterexample: with `git archive` hitting its timeout bound (path
oracle reporting nothing unusual), `_cloc_from_archive` raises
`TimeoutExpired` to its caller rather than returning `(0, {})`. -/
theorem C2_counterexample :
    (cloc_from_archive envArchiveTimeout ("h1") none st0).1 =
      .error .timeoutExpired := by decide

/-- C2 amended: if the archive step completes with a non-zero exit code
(path never existed, corrupted object), or it completes with exit 0 and the
counting step completes with a non-zero exit code, `_cloc_from_archive`
returns `(0, {})` without raising; a timeout of either external process —
the archive step, or the counting step after a successful archive —
however, raises `TimeoutExpired` to the caller. -/
theorem C2_failure_paths (env : Env) (commit : String) (subpath : Option String)
    (st : St) :
    (∀ a, env.archive commit subpath = .completed a → a.returncode ≠ 0 →
      (cloc_from_archive env commit subpath st).1 = .ok (0, [])) ∧
    (∀ a c, env.archive commit subpath = .completed a → a.returncode = 0 →
      env.cloc a.stdout = .completed c → c.returncode ≠ 0 →
      (cloc_from_archive env commit subpath st).1 = .ok (0, [])) ∧
    (env.archive commit subpath = .timedOut →
      (cloc_from_archive env commit subpath st).1 = .error .timeoutExpired) ∧
    (∀ a, env.archive commit subpath = .completed a → a.returncode = 0 →
      env.cloc a.stdout = .timedOut →
      (cloc_from_archive env commit subpath st).1 = .error .timeoutExpired) := by
  refine ⟨?_, ?_, ?_, ?_⟩
  · intro a ha hrc
    unfold cloc_from_archive cloc_body
    rw [ha]
    dsimp only
    rw [if_pos hrc]
  · intro a c ha hrc hc hcrc
    unfold cloc_from_archive cloc_body
    rw [ha]
    dsimp only
    rw [if_neg (fun hh => hh hrc), hc]
    dsimp only
    rw [if_pos hcrc]
  · intro ha
    unfold cloc_from_archive cloc_body
    rw [ha]
  · intro a ha hrc hc
    unfold cloc_from_archive cloc_body
    rw [ha]
    dsimp only
    rw [if_neg (fun hh => hh hrc), hc]

theorem C2_witness :
    (cloc_from_archive envArchiveFails ("h1") none st0).1 = .ok (0, []) ∧
    (cloc_from_archive envClocFails ("h1") none st0).1 = .ok (0, []) ∧
    (cloc_from_archive envArchiveTimeout ("h2") none st0).1 = .error .timeoutExpired ∧
    (cloc_from_archive envClocTimeout ("h1") none st0).1 = .error .timeoutExpired :=
  ⟨(C2_failure_paths envArchiveFails ("h1") none st0).1 ⟨1, "", ""⟩ rfl (by decide),
   (C2_failure_paths envClocFails ("h1") none st0).2.1 ⟨0, "TAR", ""⟩ ⟨2, "", ""⟩
     rfl rfl rfl (by decide),
   (C2_failure_paths envArchiveTimeout ("h2") none st0).2.2.1 rfl,
   (C2_failure_paths envClocTimeout ("h1") none st0).2.2.2 ⟨0, "TAR", ""⟩
     rfl rfl rfl⟩

/-- C8: on every exit path of `_cloc_from_archive` — success, the non-zero
exit bailouts, or a raised timeout or parse exception — the `finally:`
block removes the temp file the invocation created: the filesystem model is
returned unchanged whenever the fresh temp name was not already present. -/
theorem C8_cleanup (env : Env) (commit : String) (subpath : Option String)
    (st : St) (hfresh : env.tmpName st.counter ∉ st.fs) :
    ((cloc_from_archive env commit subpath st).2).fs = st.fs := by
  unfold cloc_from_archive
  simp only [cloc_body_fs]
  unfold fsRemoveIfExists fsAdd
  rw [if_neg hfresh, if_pos (List.mem_cons_self _ _)]
  exact List.erase_cons_head _ _

theorem C8_witness :
    ((cloc_from_archive envOk ("h1") none st0).2).fs = st0.fs ∧
    ((cloc_from_archive envArchiveTimeout ("h1") none st0).2).fs = st0.fs :=
  ⟨C8_cleanup envOk ("h1") none st0 (by decide),
   C8_cleanup envArchiveTimeout ("h1") none st0 (by decide)⟩

/-- C4: in every snapshot of a successful `collect_snapshots` run,
`subdir_totals` and `subdir_by_lang` have identical key lists, whose
members are exactly the normalized tracked paths; an absent or failed
subdirectory still contributes its key to both. -/
theorem C4_subdir_keys (env : Env) (branch : String) (subdirs : List String)
    (st : St) (snaps : List LOCSnapshot)
    (h : (collect_snapshots env branch subdirs st).1 = .ok snaps) :
    ∀ s ∈ snaps, dictKeys s.subdir_totals = dictKeys s.subdir_by_lang ∧
      ∀ p, p ∈ dictKeys s.subdir_totals ↔ p ∈ subdirs.map normalizeSubdir := by
  rcases hc : collect_snapshots env branch subdirs st with ⟨res, st₁⟩
  rw [hc] at h
  dsimp at h
  subst h
  unfold collect_snapshots at hc
  cases hg : get_monthly_commits env branch with
  | error e => rw [hg] at hc; simp [Prod.ext_iff] at hc
  | ok commits =>
    rw [hg] at hc
    exact collectLoop_subdirs env (subdirs.map normalizeSubdir) commits st snaps st₁ hc

theorem C4_witness :
    (dictKeys snapJanOk.subdir_totals = dictKeys snapJanOk.subdir_by_lang ∧
      ("apps/web/" ∈ dictKeys snapJanOk.subdir_totals ↔
        "apps/web/" ∈ (["apps/web", "lib"].map normalizeSubdir))) ∧
    (dictKeys snapFebOk.subdir_totals = dictKeys snapFebOk.subdir_by_lang ∧
      ("lib/" ∈ dictKeys snapFebOk.subdir_totals ↔
        "lib/" ∈ (["apps/web", "lib"].map normalizeSubdir))) :=
  ⟨⟨(C4_subdir_keys envOk ("main") ["apps/web", "lib"] st0 [snapJanOk, snapFebOk]
       (by decide) snapJanOk (by decide)).1,
    (C4_subdir_keys envOk ("main") ["apps/web", "lib"] st0 [snapJanOk, snapFebOk]
       (by decide) snapJanOk (by decide)).2 ("apps/web/")⟩,
   ⟨(C4_subdir_keys envOk ("main") ["apps/web", "lib"] st0 [snapJanOk, snapFebOk]
       (by decide) snapFebOk (by decide)).1,
    (C4_subdir_keys envOk ("main") ["apps/web", "lib"] st0 [snapJanOk, snapFebOk]
       (by decide) snapFebOk (by decide)).2 ("lib/")⟩⟩

/-- C5 counterexample: the existence oracle reports the tracked path
present, but the scoped extraction hits its timeout — the loop body raises
`TimeoutExpired`, refuting that no error is raised in the present case. -/
theorem C5_counterexample :
    (has_subpath envArchiveTimeout ("h1") "apps/web/" st0).1 = .ok true ∧
    (processSubdir envArchiveTimeout ("h1") "apps/web/" ([], []) st0).1 =
      .error .timeoutExpired := by
  constructor
  · decide
  · decide

/-- C5 amended: when the existence oracle reports the path absent, the loop
body records `(0, {})` for it without invoking archive or counting (the
trace gains only the ls-tree query) and raises nothing; when it reports the
path present, the archive is invoked scoped to that path and the counter on
its output, and no error is raised provided those invocations complete with
exit 0 and parseable output. -/
theorem C5_absent_present (env : Env) (commit sd : String)
    (acc : Dict String Int × Dict String (Dict String Int)) (st : St) :
    (∀ c, env.lsTree commit sd = .completed c →
      (c.returncode == 0 && pyStrip c.stdout != "") = false →
      processSubdir env commit sd acc st =
        (.ok (dictInsert sd 0 acc.1, dictInsert sd [] acc.2),
         { st with calls := st.calls ++ [CallEv.lsTreeCall commit sd] })) ∧
    (∀ c a cc r, env.lsTree commit sd = .completed c →
      (c.returncode == 0 && pyStrip c.stdout != "") = true →
      env.archive commit (some sd) = .completed a → a.returncode = 0 →
      env.cloc a.stdout = .completed cc → cc.returncode = 0 →
      parseClocOutput cc.stdout = .ok r →
      (processSubdir env commit sd acc st).1 =
        .ok (dictInsert sd r.1 acc.1, dictInsert sd r.2 acc.2) ∧
      (processSubdir env commit sd acc st).2.calls =
        st.calls ++ [CallEv.lsTreeCall commit sd,
          CallEv.archiveCall commit (some sd),
          CallEv.clocCall (env.tmpName st.counter)]) := by
  constructor
  · intro c hls habs
    unfold processSubdir has_subpath
    rw [hls]
    dsimp only
    rw [habs]
  · intro c a cc r hls hpres ha harc hc hcrc hparse
    unfold processSubdir has_subpath cloc_from_archive cloc_body
    rw [hls]
    dsimp only
    rw [hpres]
    dsimp only
    rw [ha]
    dsimp only
    rw [if_neg (fun hh => hh harc), hc]
    dsimp only
    rw [if_neg (fun hh => hh hcrc), hparse]
    dsimp only
    exact ⟨rfl, by simp⟩

theorem C5_witness :
    processSubdir envOk ("h1") "lib/" ([], []) st0 =
      (.ok ([("lib/", 0)], [("lib/", [])]),
       { st0 with calls := st0.calls ++ [CallEv.lsTreeCall ("h1") "lib/"] }) ∧
    ((processSubdir envOk ("h1") "apps/web/" ([], []) st0).1 =
      .ok ([("apps/web/", 5)], [("apps/web/", [("Python", 5)])]) ∧
     (processSubdir envOk ("h1") "apps/web/" ([], []) st0).2.calls =
      st0.calls ++ [CallEv.lsTreeCall ("h1") "apps/web/",
        CallEv.archiveCall ("h1") (some ("apps/web/")),
        CallEv.clocCall (envOk.tmpName st0.counter)]) :=
  ⟨(C5_absent_present envOk ("h1") "lib/" ([], []) st0).1 ⟨0, "", ""⟩ rfl (by decide),
   (C5_absent_present envOk ("h1") "apps/web/" ([], []) st0).2 ⟨0, "tree", ""⟩
     ⟨0, "TAR", ""⟩ ⟨0, csvOk, ""⟩ (5, [("Python", 5)]) rfl (by decide) rfl rfl
     rfl rfl (by decide)⟩

/-- C3 counterexample: the parser accepts a tool output whose `SUM` row (7)
does not match its language rows (summing to 5); the resulting snapshot has
`repo_total` different from the sum of `repo_by_lang` and is not the empty
`(0, {})` — refuting the claimed invariant. -/
theorem C3_counterexample :
    (collect_snapshots envSumMismatch ("main") [] st0).1 = .ok [snapMM] ∧
    snapMM.repo_total ≠ dictValuesSum snapMM.repo_by_lang ∧
    ¬(snapMM.repo_total = 0 ∧ snapMM.repo_by_lang = []) := by
  refine ⟨by decide, by decide, ?_⟩
  rintro ⟨h, _⟩
  exact absurd h (by decide)

/-- C3 amended: on bad-row-free tool output with pairwise-distinct language
labels the parser returns the last SUM-row value as the total and exactly
the language rows as the mapping; hence the total equals the sum of the
per-language counts exactly when the tool output is arithmetically
consistent — the parser itself does not enforce that equality. -/
theorem C3_total_vs_sum (s : String)
    (hgood : ∀ l ∈ pySplitlines (pyStrip s), isBadRow l = false)
    (hnd : ((langRowsOf (pySplitlines (pyStrip s))).map Prod.fst).Nodup) :
    parseClocOutput s =
      .ok (clocTotalSpec (pySplitlines (pyStrip s)) 0,
           langRowsOf (pySplitlines (pyStrip s))) ∧
    (clocTotalSpec (pySplitlines (pyStrip s)) 0 =
        dictValuesSum (langRowsOf (pySplitlines (pyStrip s))) →
      ∀ total byLang, parseClocOutput s = .ok (total, byLang) →
        total = dictValuesSum byLang) := by
  have h₁ : parseClocOutput s =
      .ok (clocTotalSpec (pySplitlines (pyStrip s)) 0,
           insertAll [] (langRowsOf (pySplitlines (pyStrip s)))) :=
    parseClocGo_noBad (pySplitlines (pyStrip s)) hgood 0 []
  have h₂ : insertAll [] (langRowsOf (pySplitlines (pyStrip s))) =
      langRowsOf (pySplitlines (pyStrip s)) := by
    rw [insertAll_eq_append _ _ hnd (by simp [dictKeys])]
    simp
  rw [h₂] at h₁
  refine ⟨h₁, fun hcons total byLang hparse => ?_⟩
  rw [h₁] at hparse
  injection hparse with hp
  rw [Prod.ext_iff] at hp
  obtain ⟨ht, hb⟩ := hp
  dsimp at ht hb
  rw [← ht, ← hb]
  exact hcons

theorem C3_witness :
    parseClocOutput csvOk =
      .ok (clocTotalSpec (pySplitlines (pyStrip csvOk)) 0,
           langRowsOf (pySplitlines (pyStrip csvOk))) ∧
    (clocTotalSpec (pySplitlines (pyStrip csvOk)) 0 =
        dictValuesSum (langRowsOf (pySplitlines (pyStrip csvOk))) →
      ∀ total byLang, parseClocOutput csvOk = .ok (total, byLang) →
        total = dictValuesSum byLang) :=
  C3_total_vs_sum csvOk (by decide) (by decide)

/-- C6 counterexample: a digit-leading row with five fields whose code
field is not an integer aborts the parse with `ValueError` instead of being
skipped — the parse does not terminate normally on every input. -/
theorem C6_counterexample :
    parseClocOutput ("1,Python,2,3,x") = .error .valueError := by decide

/-- C6 amended: rows beginning with `files`, nonempty rows whose first
character is not a digit, and nonempty rows with fewer than five comma
fields are skipped without aborting; on input free of exception rows the
parse terminates normally, the reserved `SUM` row supplies the total and is
excluded from the per-language mapping. The parse of an arbitrary input
need not terminate normally, however: reaching an empty line aborts the
parse with `IndexError` (from `line[0]`), and a digit-leading five-field
row with a non-integer code field aborts it with `ValueError` (the
counterexample). -/
theorem C6_row_handling :
    (∀ (t : Int) (b : Dict String Int) (l : String) (rest : List String),
      rowKindOf l = .skip →
      parseClocGo (l :: rest) t b = parseClocGo rest t b) ∧
    (∀ l, listStartsWith ("files").toList l.toList = true → rowKindOf l = .skip) ∧
    (∀ (l : String) (c : Char) (cs : List Char), l.toList = c :: cs →
      c.isDigit = false → rowKindOf l = .skip) ∧
    (∀ (l : String) (c : Char) (cs : List Char), l.toList = c :: cs →
      listStartsWith ("files").toList l.toList = false →
      (pySplitComma l).length < 5 → rowKindOf l = .skip) ∧
    (∀ (t : Int) (b : Dict String Int) (rest : List String),
      parseClocGo ("" :: rest) t b = .error .indexError) ∧
    (∀ s, (∀ l ∈ pySplitlines (pyStrip s), isBadRow l = false) →
      ∃ total byLang, parseClocOutput s = .ok (total, byLang) ∧
        "SUM" ∉ dictKeys byLang ∧
        total = clocTotalSpec (pySplitlines (pyStrip s)) 0) := by
  refine ⟨?_, ?_, ?_, ?_, ?_, ?_⟩
  · intro t b l rest hk
    rw [parseClocGo_cons, hk]
  · intro l hf
    unfold rowKindOf
    rw [if_pos hf]
  · intro l c cs hl hd
    unfold rowKindOf
    by_cases hf : listStartsWith ("files").toList l.toList = true
    · rw [if_pos hf]
    · rw [Bool.not_eq_true] at hf
      simp only [hf, Bool.false_eq_true, if_false, ite_false]
      rw [hl]
      simp [hd]
  · intro l c cs hl hf hlen
    unfold rowKindOf
    simp only [hf, Bool.false_eq_true, if_false, ite_false]
    rw [hl]
    by_cases hd : c.isDigit = true
    · simp only [hd, not_true, if_false, ite_false, not_false_iff, if_true, ite_true]
      rw [if_pos hlen]
    · rw [Bool.not_eq_true] at hd
      simp [hd]
  · intro t b rest
    rw [parseClocGo_cons]
    have hk : rowKindOf ("") = .bad .indexError := by decide
    rw [hk]
  · intro s hgood
    refine ⟨clocTotalSpec (pySplitlines (pyStrip s)) 0,
      insertAll [] (langRowsOf (pySplitlines (pyStrip s))), ?_, ?_, rfl⟩
    · exact parseClocGo_noBad (pySplitlines (pyStrip s)) hgood 0 []
    · exact sum_notMem_langRows (pySplitlines (pyStrip s))

theorem C6_witness :
    (parseClocGo ["files,language,blank,comment,code", "1,Python,2,3,5"] 0 [] =
      parseClocGo ["1,Python,2,3,5"] 0 []) ∧
    (parseClocGo ["", "1,SUM,0,0,7"] 0 [] = .error .indexError) ∧
    (∃ total byLang, parseClocOutput csvOk = .ok (total, byLang) ∧
      "SUM" ∉ dictKeys byLang ∧
      total = clocTotalSpec (pySplitlines (pyStrip csvOk)) 0) :=
  ⟨C6_row_handling.1 0 [] "files,language,blank,comment,code"
     ["1,Python,2,3,5"] (by decide),
   C6_row_handling.2.2.2.2.1 0 [] ["1,SUM,0,0,7"],
   C6_row_handling.2.2.2.2.2 csvOk (by decide)⟩

/-- C10: `subdir_pct` is total — the division is guarded by the
`repo_total == 0` check — returning 0 when `repo_total` is zero, returning
0 for a subdirectory key absent from `subdir_totals`, and otherwise
returning `subdir_totals.get(subdir, 0) / repo_total * 100`. -/
theorem C10_subdir_pct (s : LOCSnapshot) (subdir : String) :
    (s.repo_total = 0 → s.subdir_pct subdir = 0) ∧
    (subdir ∉ dictKeys s.subdir_totals → s.subdir_pct subdir = 0) ∧
    (s.repo_total ≠ 0 → s.subdir_pct subdir =
      ((dictGetD s.subdir_totals subdir 0 : Int) : ℚ) / (s.repo_total : ℚ) * 100) := by
  refine ⟨fun h => by simp [LOCSnapshot.subdir_pct, h], fun h => ?_,
    fun h => by simp [LOCSnapshot.subdir_pct, h]⟩
  unfold LOCSnapshot.subdir_pct
  by_cases h0 : s.repo_total = 0
  · rw [if_pos h0]
  · rw [if_neg h0]
    rw [dictGetD, dictLookup_eq_none _ _ h]
    simp

theorem C10_witness :
    snapZero.subdir_pct ("apps/web/") = 0 ∧
    snapMM.subdir_pct ("apps/web/") = 0 ∧
    snapJanOk.subdir_pct ("apps/web/") =
      ((dictGetD snapJanOk.subdir_totals ("apps/web/") 0 : Int) : ℚ) /
        (snapJanOk.repo_total : ℚ) * 100 :=
  ⟨(C10_subdir_pct snapZero ("apps/web/")).1 rfl,
   (C10_subdir_pct snapMM ("apps/web/")).2.1 (by decide),
   (C10_subdir_pct snapJanOk ("apps/web/")).2.2 (by decide)⟩

end LocDashboard
